import Mathlib

/-!
Verification of `prometheus-csv-adapter` (src/main.rs) against its
natural-language specification.

The single Rust source file is shallowly embedded below:

* `normalize_string` mirrors the Rust function of the same name
  (src/main.rs lines 254-274), working on the character list of the string.
  Character classes use Lean's ASCII `Char.isAlphanum` / `Char.toLower`,
  which agree with Rust's `char::is_alphanumeric` / `to_ascii_lowercase`
  on ASCII input.
* `parse_input` mirrors `parse_input` (lines 197-250).  File I/O is
  represented by an `Except String String` argument holding either the file
  content or the open error.  The `csv` crate reader is modelled for
  quote-free content: records are the non-empty lines, fields are split on
  the configured delimiter, the first record fixes the expected field count
  and each yielded record errors when its count differs (the crate's
  `UnequalLengths`); the record iterator keeps yielding subsequent records
  after such an error, and `rdr.records().last()` therefore only propagates
  an error of the last record.  `rdr.headers()` returns the first record
  whether or not `has_headers` is set (csv crate documented behaviour).
* The snapshot cache `Prom` (lines 113-193) becomes a pure state machine
  over the cell `Option String`: `gen_output` models `Prom::gen_output`
  and also reports whether the extractor was invoked; `monitor_step`
  models one successful inotify wake-up of `Prom::monitor_input`.  All
  cell accesses in the program happen under one mutex, so a process run
  is an arbitrary interleaving, i.e. a list of `CacheOp`s.
* `handle_request` mirrors the request loop of `main` (lines 46-63).
-/

/-- Splits a character list at every occurrence of `d` (the separators are
dropped, empty chunks are kept): the character-level splitter used by the
CSV model and by the `f64` grammar below. -/
def splitListOn (d : Char) : List Char → List (List Char)
  | [] => [[]]
  | c :: cs =>
    match splitListOn d cs with
    | [] => [[c]]
    | y :: ys => if c = d then [] :: y :: ys else (c :: y) :: ys

/-- Loop body of `normalize_string` (src/main.rs lines 256-268): `prev` is
Rust's `prev_c`, initially `'_'`.  Alphanumeric characters are pushed
lowercased; a non-alphanumeric character pushes a single `'_'` unless the
previously pushed character already was one. -/
def normCore : Char → List Char → List Char
  | _, [] => []
  | prev, c :: cs =>
    if c.isAlphanum then c.toLower :: normCore c.toLower cs
    else if prev = '_' then normCore prev cs
    else '_' :: normCore '_' cs

/-- `normalize_string` (src/main.rs lines 254-274): run the loop starting
from `prev_c = '_'`, then pop a trailing `'_'` if present. -/
def normalize_string (s : String) : String :=
  let v := normCore '_' s.data
  ⟨if v.getLast? = some '_' then v.dropLast else v⟩

/-- Modelled from the spec (claim C4): the maximal runs of alphanumeric
characters of a string, each run lower-cased character by character. -/
def specWords (cs : List Char) : List (List Char) :=
  match cs with
  | [] => []
  | c :: rest =>
    if c.isAlphanum then
      ((c :: rest).takeWhile Char.isAlphanum).map Char.toLower
        :: specWords ((c :: rest).dropWhile Char.isAlphanum)
    else
      specWords rest
termination_by cs.length
decreasing_by
  · rename_i hc
    have hle : ∀ l : List Char,
        (l.dropWhile Char.isAlphanum).length ≤ l.length := by
      intro l
      induction l with
      | nil => simp
      | cons a as ih =>
        rw [List.dropWhile_cons]
        by_cases ha : a.isAlphanum
        · simp only [ha, if_pos]
          exact Nat.le_succ_of_le ih
        · simp [ha]
    rw [List.dropWhile_cons_of_pos hc]
    simp only [List.length_cons]
    exact Nat.lt_succ_of_le (hle _)
  · simp only [List.length_cons]
    omega

/-- Joins word chunks with a single `'_'` between consecutive chunks. -/
def joinUS : List (List Char) → List Char
  | [] => []
  | [w] => w
  | w :: ws => w ++ '_' :: joinUS ws

/-- Modelled from the spec (claim C4): "lower-case every alphanumeric
character; collapse any run of one or more non-alphanumeric characters
into a single `'_'`; never emit a leading or trailing `'_'`" — i.e. the
lowercased maximal alphanumeric runs joined by single underscores. -/
def specNormalize (s : String) : String :=
  ⟨joinUS (specWords s.data)⟩

/-- Whether the string ends in a non-alphanumeric character (the only way
`normalize_string`'s loop can leave a trailing underscore to pop). -/
def trailSep (cs : List Char) : Bool :=
  match cs.getLast? with
  | none => false
  | some c => !c.isAlphanum

/-- `input` section of the configuration (src/main.rs lines 83-88).
The `file` path only matters to the I/O layer, which the embedding
replaces by an explicit `Except` file-content argument. -/
structure Input where
  file : String
  delimiter : Option Char
  has_headers : Bool
deriving DecidableEq

/-- `output` section of the configuration (src/main.rs lines 90-99).
`pfx` embeds the Rust field `prefix` (renamed because `prefix` is a Lean
keyword); the socket address is kept as its textual form. -/
structure Output where
  socket : String
  pfx : String
  numeric_values_only : Bool
  skip_duplicate_headers : Bool
deriving DecidableEq

/-- The configuration record (src/main.rs lines 76-81).  The optional
`fields` include/exclude patterns are parsed by the program but never
consulted by the conversion logic, so they are not part of the model. -/
structure Config where
  input : Input
  output : Output
deriving DecidableEq

/-- Delimiter resolution (src/main.rs lines 204-207): configured character,
defaulting to `','`. -/
def Config.delim (cfg : Config) : Char :=
  cfg.input.delimiter.getD ','

/-- Field names declared by the Rust `Output` struct (src/main.rs
lines 90-99), in declaration order. -/
def outputFieldNames : List String :=
  ["socket", "prefix", "numeric_values_only", "skip_duplicate_headers"]

/-- Modelled from the spec: the output destination as described in §3 and
§6 of the specification, "either a file path or a listen address —
mutually exclusive variants". -/
inductive SpecOutputDest
  | file (path : String)
  | socket (addr : String)
deriving DecidableEq

/-- Whether a spec-level output destination is the listen-address variant. -/
def SpecOutputDest.isSocket : SpecOutputDest → Bool
  | SpecOutputDest.socket _ => true
  | SpecOutputDest.file _ => false

/-- Output destination actually selected by `main` (src/main.rs lines
38-44): the HTTP server is unconditionally started on `cfg.output.socket`;
no file-writing branch exists in the program. -/
def mainOutputDest (cfg : Config) : SpecOutputDest :=
  SpecOutputDest.socket cfg.output.socket

/-- All characters are ASCII digits. -/
def isDigitList (l : List Char) : Bool :=
  l.all Char.isDigit

/-- Mantissa of the Rust `f64` grammar: digits with at most one `'.'` and
at least one digit overall (so `"5."`, `".5"`, `"5"` pass; `"."`, `""`,
`"1.2.3"` fail). -/
def mantissaOk (m : List Char) : Bool :=
  let parts := splitListOn '.' m
  (parts.length = 1 || parts.length = 2) && parts.all isDigitList
    && m.any Char.isDigit

/-- Split at the first `'e'`/`'E'` into mantissa and optional exponent
part. -/
def splitExp : List Char → List Char × Option (List Char)
  | [] => ([], none)
  | c :: cs =>
    if c = 'e' || c = 'E' then ([], some cs)
    else
      let r := splitExp cs
      (c :: r.1, r.2)

/-- Drop one leading sign character. -/
def stripSign : List Char → List Char
  | '+' :: cs => cs
  | '-' :: cs => cs
  | cs => cs

/-- Exponent of the `f64` grammar: optional sign then at least one digit. -/
def expOk (e : List Char) : Bool :=
  let e1 := stripSign e
  (!e1.isEmpty) && isDigitList e1

/-- The grammar accepted by Rust's `f64::from_str` (as documented for
`str::parse::<f64>()`, the call at src/main.rs line 231): an optional
sign followed by `inf`, `infinity` or `nan` (ASCII case-insensitive), or
by a decimal mantissa with an optional decimal exponent.  `parse` errors
exactly on strings outside this grammar; out-of-range values round to
infinity and are still `Ok`. -/
def parsesF64Chars (cs : List Char) : Bool :=
  let cs1 := stripSign cs
  let low := cs1.map Char.toLower
  if low == "inf".data || low == "infinity".data || low == "nan".data then
    true
  else
    let me := splitExp cs1
    mantissaOk me.1 && (match me.2 with
      | none => true
      | some ex => expOk ex)

/-- `value.parse::<f64>().is_ok()` for a string value. -/
def parsesF64 (s : String) : Bool :=
  parsesF64Chars s.data

/-- Modelled from the spec: "the value does not parse as a finite decimal
number" (§4.1 step 2 / claim C5).  A finite decimal number is an optional
sign, then a decimal mantissa with an optional decimal exponent — the
infinity and NaN words are not finite decimal numbers. -/
def parsesAsFiniteDecimal (s : String) : Bool :=
  let cs1 := stripSign s.data
  let me := splitExp cs1
  mantissaOk me.1 && (match me.2 with
    | none => true
    | some ex => expOk ex)

/-- Which branch of the per-pair loop body fired (src/main.rs
lines 221-247). -/
inductive PairKind
  | dupSkip
  | numSkip
  | sample
deriving DecidableEq

/-- The skip-comment block pushed at src/main.rs lines 225 and 236. -/
def skipBlock (h v : String) : String :=
  "# skipped: '" ++ h ++ "' '" ++ v ++ "'\n\n"

/-- The emitted metric block (src/main.rs lines 240-246): comment line,
then `prefix`, normalized header, two spaces and the value. -/
def sampleBlock (cfg : Config) (h v : String) : String :=
  "# " ++ h ++ "\n" ++ cfg.output.pfx ++ normalize_string h ++ "  " ++ v
    ++ "\n\n"

/-- One iteration of the `for (header, value)` loop (src/main.rs
lines 221-247): duplicate-header check first (recording the header as seen
before the numeric check), then the numeric-value check, else the sample
block.  Returns which branch fired, the pushed string, and the updated
`seen_headers` list. -/
def processPair (cfg : Config) (seen : List String) (h v : String) :
    PairKind × String × List String :=
  if cfg.output.skip_duplicate_headers && seen.contains h then
    (PairKind.dupSkip, skipBlock h v, seen)
  else
    let seen1 := if cfg.output.skip_duplicate_headers then seen ++ [h]
      else seen
    if cfg.output.numeric_values_only && !parsesF64 v then
      (PairKind.numSkip, skipBlock h v, seen1)
    else
      (PairKind.sample, sampleBlock cfg h v, seen1)

/-- Folds the loop over the zipped (header, value) pairs, accumulating the
output string `res` and threading `seen_headers`. -/
def renderPairs (cfg : Config) : List String → List (String × String) → String
  | _, [] => ""
  | seen, (h, v) :: rest =>
    let r := processPair cfg seen h v
    r.2.1 ++ renderPairs cfg r.2.2 rest

/-- Output produced for one record: the loop of src/main.rs lines 221-247
over `headers.iter().zip(records.iter())` starting from an empty
`seen_headers`. -/
def renderRecord (cfg : Config) (headers row : List String) : String :=
  renderPairs cfg [] (headers.zip row)

/-- CSV records of a file content: non-empty lines (the csv crate skips
empty lines; a trailing newline yields no extra record). -/
def csvLines (content : String) : List (List Char) :=
  (splitListOn '\n' content.data).filter (fun l => !l.isEmpty)

/-- Fields of one CSV record, split on the configured delimiter
(quote-free model of the csv crate's field splitting). -/
def csvFields (d : Char) (line : List Char) : List String :=
  (splitListOn d line).map (fun l => ⟨l⟩)

/-- All records the csv reader derives from the file content. -/
def csvRows (cfg : Config) (content : String) : List (List String) :=
  (csvLines content).map (csvFields cfg.delim)

/-- `rdr.headers()` (src/main.rs line 219): the first record of the file,
whether or not `has_headers` is set (csv crate documented behaviour);
empty when the file has no records. -/
def headersOf (cfg : Config) (content : String) : List String :=
  match csvRows cfg content with
  | [] => []
  | first :: _ => first

/-- The records yielded by `rdr.records()` (src/main.rs line 216): with
`has_headers` the first record is consumed as the header row, otherwise
it is also yielded as data. -/
def dataRowsOf (cfg : Config) (content : String) : List (List String) :=
  match csvRows cfg content with
  | [] => []
  | first :: rest => if cfg.input.has_headers then rest else first :: rest

/-- `rdr.records().last()` followed by `last?` and the render loop
(src/main.rs lines 214-249): no data record yields the empty snapshot; the
last record errors (csv `UnequalLengths`) when its field count differs
from the first record's (= the header row's) count, and that error is
propagated by `?`; otherwise the record is rendered. -/
def renderData (cfg : Config) (headers : List String)
    (rows : List (List String)) : Except String String :=
  match rows.getLast? with
  | none => Except.ok ""
  | some last =>
    if last.length = headers.length then
      Except.ok (renderRecord cfg headers last)
    else
      Except.error "CSV error: record length mismatch"

/-- `parse_input` (src/main.rs lines 197-250) with the file system
abstracted: `file` is the result of opening and reading the input file. -/
def parse_input (cfg : Config) (file : Except String String) :
    Except String String :=
  match file with
  | Except.error e => Except.error e
  | Except.ok content =>
    renderData cfg (headersOf cfg content) (dataRowsOf cfg content)

/-- `Prom::gen_output` (src/main.rs lines 133-148) acting on the cache
cell, with the extraction outcome `ext` passed explicitly.  Returns the
returned value, the new cell content, and whether `parse_input` was
invoked (it is invoked exactly when the cell is empty). -/
def gen_output (cell : Option String) (ext : Except String String) :
    Option String × Option String × Bool :=
  match cell with
  | some s => (some s, some s, false)
  | none =>
    match ext with
    | Except.ok s => (some s, some s, true)
    | Except.error _ => (none, none, true)

/-- One successful inotify wake-up of the watcher thread
(src/main.rs lines 178-187): a successful extraction overwrites the cell,
a failed one leaves it untouched. -/
def monitor_step (cell : Option String) (ext : Except String String) :
    Option String :=
  match ext with
  | Except.ok s => some s
  | Except.error _ => cell

/-- One serialized access to the cache cell: either a read path call of
`gen_output` or a watcher wake-up, each with the outcome the extraction
attempt would have. -/
inductive CacheOp
  | read (ext : Except String String)
  | watch (ext : Except String String)

/-- Effect of one cache operation on the cell. -/
def cacheStep (cell : Option String) : CacheOp → Option String
  | CacheOp.read ext => (gen_output cell ext).2.1
  | CacheOp.watch ext => monitor_step cell ext

/-- Cell content after a sequence of serialized cache operations. -/
def runOps (cell : Option String) (ops : List CacheOp) : Option String :=
  ops.foldl cacheStep cell

/-- HTTP methods of `tiny_http::Method` used by the request loop. -/
inductive Method
  | get
  | post
  | put
  | delete
  | head
  | options
  | patch
deriving DecidableEq

/-- The request loop body of `main` (src/main.rs lines 46-63): non-
`/metrics` URLs get `404`, non-GET methods on `/metrics` get `405`, and a
GET on `/metrics` answers `200` with the cached snapshot or `500` with an
empty body, where `cache` is what `prom.gen_output()` returned.  The pair
is (status code, body). -/
def handle_request (m : Method) (url : String) (cache : Option String) :
    Nat × String :=
  if url ≠ "/metrics" then (404, "")
  else if m ≠ Method.get then (405, "")
  else
    match cache with
    | some s => (200, s)
    | none => (500, "")

/-- Concrete configuration of the C3 end-to-end scenario: headers on,
prefix `"app_"`, both filters off. -/
def cfgC3 : Config :=
  { input := { file := "in.csv", delimiter := none, has_headers := true }
    output := { socket := "127.0.0.1:9090", pfx := "app_",
                numeric_values_only := false,
                skip_duplicate_headers := false } }

/-- Configuration with only `numeric_values_only` set (claim C5). -/
def cfgC5 : Config :=
  { input := { file := "in.csv", delimiter := none, has_headers := true }
    output := { socket := "127.0.0.1:9090", pfx := "",
                numeric_values_only := true,
                skip_duplicate_headers := false } }

/-- Configuration with only `skip_duplicate_headers` set (claim C6). -/
def cfgC6 : Config :=
  { input := { file := "in.csv", delimiter := none, has_headers := true }
    output := { socket := "127.0.0.1:9090", pfx := "",
                numeric_values_only := false,
                skip_duplicate_headers := true } }

/-- Plain configuration, headers on, no prefix, no filters (claim C7). -/
def cfgC7 : Config :=
  { input := { file := "in.csv", delimiter := none, has_headers := true }
    output := { socket := "127.0.0.1:9090", pfx := "",
                numeric_values_only := false,
                skip_duplicate_headers := false } }

/-- Plain configuration used for claim C9. -/
def cfgC9 : Config := cfgC7

/-- Plain configuration with `has_headers = false` (claim C10). -/
def cfgC10 : Config :=
  { input := { file := "in.csv", delimiter := none, has_headers := false }
    output := { socket := "127.0.0.1:9090", pfx := "",
                numeric_values_only := false,
                skip_duplicate_headers := false } }

/-- Any single serialized cache access keeps a populated cell populated. -/
theorem cacheStep_isSome (cell : Option String) (op : CacheOp)
    (h : cell.isSome = true) : (cacheStep cell op).isSome = true := by
  obtain ⟨s, rfl⟩ := Option.isSome_iff_exists.mp h
  cases op with
  | read ext => rfl
  | watch ext => cases ext <;> rfl

/-- A populated cell stays populated across any sequence of accesses. -/
theorem runOps_isSome (ops : List CacheOp) :
    ∀ cell : Option String, cell.isSome = true →
      (runOps cell ops).isSome = true := by
  induction ops with
  | nil => intro cell h; exact h
  | cons op rest ih =>
    intro cell h
    exact ih (cacheStep cell op) (cacheStep_isSome cell op h)

/-- **C1**: once the cache cell holds a snapshot (stored by a successful
extraction through either the watcher overwrite or a successful
`gen_output`), every later interleaving of `gen_output` calls and watcher
wake-ups — even with all extraction attempts failing — leaves the cell
holding some snapshot, and `gen_output` never again returns `None`. -/
theorem cache_cell_never_cleared (cell : Option String) (ops : List CacheOp)
    (ext : Except String String) (h : cell.isSome = true) :
    (runOps cell ops).isSome = true ∧
      ((gen_output (runOps cell ops) ext).1).isSome = true := by
  have hs := runOps_isSome ops cell h
  refine ⟨hs, ?_⟩
  obtain ⟨s, hsome⟩ := Option.isSome_iff_exists.mp hs
  rw [hsome]
  rfl

/-- Witness for C1: populated cell, then a failing read and a failing
watcher wake-up; the cell is still populated and a further read with a
failing extractor still returns a snapshot. -/
theorem cache_cell_never_cleared_witness :
    (runOps (some "snap")
        [CacheOp.read (Except.error "fail"),
         CacheOp.watch (Except.error "fail")]).isSome = true ∧
      ((gen_output
          (runOps (some "snap")
            [CacheOp.read (Except.error "fail"),
             CacheOp.watch (Except.error "fail")])
          (Except.error "fail")).1).isSome = true :=
  cache_cell_never_cleared (some "snap")
    [CacheOp.read (Except.error "fail"), CacheOp.watch (Except.error "fail")]
    (Except.error "fail") rfl

/-- **C2**: `gen_output` returns the cached snapshot without invoking the
extractor when the cell is full; on an empty cell it invokes the
extractor, storing and returning the new snapshot on success, and on
failure returns `None` leaving the cell empty. -/
theorem gen_output_semantics :
    (∀ (s : String) (ext : Except String String),
        gen_output (some s) ext = (some s, some s, false)) ∧
    (∀ s : String, gen_output none (Except.ok s) = (some s, some s, true)) ∧
    (∀ e : String,
        gen_output none (Except.error e) = (none, none, true)) :=
  ⟨fun _ _ => rfl, fun _ => rfl, fun _ => rfl⟩

/-- **C3**: the snapshot depends only on the last data record — rendering
any record list ending in `r` equals rendering `[r]` — and the end-to-end
scenario `"a,b\n1,2\n3,4\n"` with headers on, prefix `"app_"` and no
filters yields exactly `"# a\napp_a  3\n\n# b\napp_b  4\n\n"`. -/
theorem last_record_wins :
    (∀ (cfg : Config) (hs : List String) (rs : List (List String))
        (r : List String),
        renderData cfg hs (rs ++ [r]) = renderData cfg hs [r]) ∧
    parse_input cfgC3 (Except.ok "a,b\n1,2\n3,4\n")
      = Except.ok "# a\napp_a  3\n\n# b\napp_b  4\n\n" := by
  refine ⟨?_, rfl⟩
  intro cfg hs rs r
  simp [renderData, List.getLast?_concat]

/-- **C7** counterexample: for content `"a,b\n1,2,3\n4,5\n"` the middle
record is malformed (three fields against the expected two), yet
extraction succeeds and renders the last record, so "the delimited-format
parse fails on any row ⇒ the whole operation fails" is false of the code:
only a failure of the last yielded record propagates through
`rdr.records().last()`. -/
theorem extraction_failure_counterexample :
    ((dataRowsOf cfgC7 "a,b\n1,2,3\n4,5\n").any
        (fun r =>
          r.length != (headersOf cfgC7 "a,b\n1,2,3\n4,5\n").length)) = true ∧
    parse_input cfgC7 (Except.ok "a,b\n1,2,3\n4,5\n")
      = Except.ok "# a\na  4\n\n# b\nb  5\n\n" :=
  ⟨rfl, rfl⟩

/-- **C7** amended: extraction fails exactly when the file cannot be
opened or the **last** data record is malformed (earlier malformed records
are discarded together with all non-last records); a file with zero data
records extracts to the empty snapshot. -/
theorem extraction_failure_criterion (cfg : Config) (e content : String) :
    parse_input cfg (Except.error e) = Except.error e ∧
    ((parse_input cfg (Except.ok content)).toOption = none ↔
      (match (dataRowsOf cfg content).getLast? with
       | none => False
       | some r => r.length ≠ (headersOf cfg content).length)) ∧
    (dataRowsOf cfg content = [] →
      parse_input cfg (Except.ok content) = Except.ok "") := by
  refine ⟨rfl, ?_, ?_⟩
  · cases hl : (dataRowsOf cfg content).getLast? with
    | none => simp [parse_input, renderData, hl, Except.toOption]
    | some r =>
      by_cases hr : r.length = (headersOf cfg content).length
      · simp [parse_input, renderData, hl, hr, Except.toOption]
      · simp [parse_input, renderData, hl, hr, Except.toOption]
  · intro h
    simp [parse_input, renderData, h]

/-- Witness for C7 (amended): a failed open propagates its error, and the
header-only file `"a,b\n"` has zero data records and extracts to `""`. -/
theorem extraction_failure_criterion_witness :
    parse_input cfgC7 (Except.error "open failed")
        = Except.error "open failed" ∧
      parse_input cfgC7 (Except.ok "a,b\n") = Except.ok "" :=
  ⟨(extraction_failure_criterion cfgC7 "open failed" "a,b\n").1,
   (extraction_failure_criterion cfgC7 "open failed" "a,b\n").2.2 rfl⟩

/-- **C8**: request routing — any URL other than `/metrics` is answered
`404`; `/metrics` with a non-GET method is answered `405`; GET `/metrics`
is answered `200` with the snapshot as body when `gen_output` returned
one, and `500` with an empty body when it returned `None`. -/
theorem http_routing (m : Method) (url : String) (cache : Option String) :
    (url ≠ "/metrics" → handle_request m url cache = (404, "")) ∧
    (url = "/metrics" → m ≠ Method.get →
      handle_request m url cache = (405, "")) ∧
    (url = "/metrics" → m = Method.get → ∀ s : String, cache = some s →
      handle_request m url cache = (200, s)) ∧
    (url = "/metrics" → m = Method.get → cache = none →
      handle_request m url cache = (500, "")) := by
  refine ⟨?_, ?_, ?_, ?_⟩
  · intro hu
    simp [handle_request, hu]
  · intro hu hm
    subst hu
    simp [handle_request, hm]
  · intro hu hm s hc
    subst hu; subst hm; subst hc
    simp [handle_request]
  · intro hu hm hc
    subst hu; subst hm; subst hc
    simp [handle_request]

/-- Witness for C8: the four routes at concrete requests. -/
theorem http_routing_witness :
    handle_request Method.get "/other" (some "m") = (404, "") ∧
    handle_request Method.post "/metrics" (some "m") = (405, "") ∧
    handle_request Method.get "/metrics" (some "m") = (200, "m") ∧
    handle_request Method.get "/metrics" none = (500, "") :=
  ⟨(http_routing Method.get "/other" (some "m")).1 (by decide),
   (http_routing Method.post "/metrics" (some "m")).2.1 rfl (by decide),
   (http_routing Method.get "/metrics" (some "m")).2.2.1 rfl rfl "m" rfl,
   (http_routing Method.get "/metrics" none).2.2.2 rfl rfl rfl⟩

/-- **C9** counterexample: the program's `Output` configuration struct
(src/main.rs lines 90-99) has no `file` field at all — its destination is
the mandatory `socket` listen address — so the claimed mutually exclusive
file-path variant does not exist in the code. -/
theorem output_two_variants_counterexample :
    outputFieldNames.contains "file" = false ∧
    outputFieldNames.contains "socket" = true ∧
    (mainOutputDest cfgC9).isSocket = true := by
  decide

/-- **C9** amended: the configuration's output destination has a single
variant — a listen socket address — for every configuration; no
file-destination mode exists and the snapshot is always served over
HTTP. -/
theorem output_socket_only (cfg : Config) :
    (mainOutputDest cfg).isSocket = true ∧
      mainOutputDest cfg = SpecOutputDest.socket cfg.output.socket ∧
      outputFieldNames.contains "file" = false :=
  ⟨rfl, rfl, by decide⟩

/-- **C10**: even with `has_headers = false`, the headers used for the
metric lines are the first record of the file, while that first record is
also kept as an ordinary data record; for the one-line file `"1,2\n"` the
line is zipped with itself as its own header names. -/
theorem headers_used_without_header_flag (cfg : Config) (content : String)
    (h : cfg.input.has_headers = false) :
    headersOf cfg content = (csvRows cfg content).headD [] ∧
    dataRowsOf cfg content = csvRows cfg content ∧
    parse_input cfgC10 (Except.ok "1,2\n")
      = Except.ok "# 1\n1  1\n\n# 2\n2  2\n\n" := by
  refine ⟨?_, ?_, rfl⟩
  · unfold headersOf
    cases csvRows cfg content <;> rfl
  · unfold dataRowsOf
    cases csvRows cfg content with
    | nil => rfl
    | cons first rest => simp [h]

/-- Witness for C10 at the one-line headerless file `"1,2\n"`. -/
theorem headers_used_without_header_flag_witness :
    headersOf cfgC10 "1,2\n" = (csvRows cfgC10 "1,2\n").headD [] ∧
    dataRowsOf cfgC10 "1,2\n" = csvRows cfgC10 "1,2\n" ∧
    parse_input cfgC10 (Except.ok "1,2\n")
      = Except.ok "# 1\n1  1\n\n# 2\n2  2\n\n" :=
  headers_used_without_header_flag cfgC10 "1,2\n" rfl

/-- Unfolding: a non-alphanumeric head contributes no word. -/
theorem specWords_sep (c : Char) (rest : List Char)
    (h : c.isAlphanum = false) :
    specWords (c :: rest) = specWords rest := by
  rw [specWords]
  simp [h]

/-- Unfolding: an alphanumeric head starts a maximal lowercased run. -/
theorem specWords_word (c : Char) (rest : List Char)
    (h : c.isAlphanum = true) :
    specWords (c :: rest)
      = ((c :: rest).takeWhile Char.isAlphanum).map Char.toLower
          :: specWords ((c :: rest).dropWhile Char.isAlphanum) := by
  rw [specWords]
  simp [h]

/-- Lower-casing an alphanumeric character never yields `'_'`. -/
theorem toLower_ne_underscore (c : Char) (h : c.isAlphanum = true) :
    c.toLower ≠ '_' := by
  show (if c.toNat ≥ 65 ∧ c.toNat ≤ 90 then Char.ofNat (c.toNat + 32) else c)
      ≠ '_'
  by_cases hc : c.toNat ≥ 65 ∧ c.toNat ≤ 90
  · rw [if_pos hc]
    obtain ⟨h1, h2⟩ := hc
    set n := c.toNat with hn
    clear_value n
    interval_cases n <;> decide
  · rw [if_neg hc]
    intro he
    rw [he] at h
    exact absurd h (by decide)

/-- The loop pushes an entire alphanumeric run lowercased, ending with the
run's last lowered character as the new `prev_c`. -/
theorem normCore_word (w r : List Char) (p : Char) :
    (∀ c ∈ w, c.isAlphanum = true) →
      normCore p (w ++ r)
        = w.map Char.toLower
            ++ normCore ((w.map Char.toLower).getLastD p) r := by
  induction w generalizing p with
  | nil =>
    intro _
    simp
  | cons a as ih =>
    intro hw
    have ha : a.isAlphanum = true := hw a (List.mem_cons_self a as)
    have has : ∀ c ∈ as, c.isAlphanum = true := fun c hc =>
      hw c (List.mem_cons_of_mem a hc)
    rw [List.cons_append, show normCore p (a :: (as ++ r))
        = a.toLower :: normCore a.toLower (as ++ r) by simp [normCore, ha]]
    rw [ih a.toLower has]
    rw [List.map_cons, List.getLastD_cons, List.cons_append]

/-- The first element surviving `dropWhile` fails the predicate. -/
theorem dropWhile_head_false {α : Type} (p : α → Bool) :
    ∀ (l : List α) (d : α) (r : List α),
      l.dropWhile p = d :: r → p d = false := by
  intro l
  induction l with
  | nil =>
    intro d r h
    simp [List.dropWhile] at h
  | cons a as ih =>
    intro d r h
    rw [List.dropWhile_cons] at h
    by_cases ha : p a
    · exact ih d r (by simpa [ha] using h)
    · rw [if_neg (by simpa using ha)] at h
      cases h
      simpa using ha

/-- Every word produced by the splitter is a nonempty lowercasing of
alphanumeric characters. -/
theorem specWords_sound (cs : List Char) :
    ∀ w ∈ specWords cs,
      w ≠ [] ∧ ∀ d ∈ w, ∃ c : Char, c.isAlphanum = true ∧ d = c.toLower := by
  induction cs using specWords.induct with
  | case1 =>
    intro w hw
    simp [specWords] at hw
  | case2 c rest hc ih =>
    intro w hw
    rw [specWords_word c rest hc] at hw
    rcases List.mem_cons.mp hw with hw | hw
    · subst hw
      constructor
      · simp [List.takeWhile_cons_of_pos hc]
      · intro d hd
        obtain ⟨c', hc', rfl⟩ := List.mem_map.mp hd
        exact ⟨c', List.mem_takeWhile_imp hc', rfl⟩
    · exact ih w hw
  | case3 c rest hc ih =>
    intro w hw
    rw [specWords_sep c rest (by simpa using hc)] at hw
    exact ih w hw

/-- Every word produced by the splitter is nonempty and free of `'_'`. -/
theorem specWords_no_underscore (cs : List Char) :
    ∀ w ∈ specWords cs, w ≠ [] ∧ ∀ d ∈ w, d ≠ '_' := by
  intro w hw
  obtain ⟨hne, hch⟩ := specWords_sound cs w hw
  refine ⟨hne, fun d hd => ?_⟩
  obtain ⟨c, hc, rfl⟩ := hch d hd
  exact toLower_ne_underscore c hc

/-- An empty word list means no alphanumeric character occurs at all. -/
theorem specWords_eq_nil (cs : List Char) (h : specWords cs = []) :
    ∀ c ∈ cs, c.isAlphanum = false := by
  induction cs using specWords.induct with
  | case1 =>
    intro c hc
    simp at hc
  | case2 c rest hc ih =>
    rw [specWords_word c rest hc] at h
    cases h
  | case3 c rest hc ih =>
    rw [specWords_sep c rest (by simpa using hc)] at h
    intro d hd
    rcases List.mem_cons.mp hd with rfl | hd
    · simpa using hc
    · exact ih h d hd

/-- A separator is skipped when the previous pushed character was `'_'`
(also the initial state). -/
theorem normCore_sep_skip (d : Char) (r : List Char)
    (hd : d.isAlphanum = false) :
    normCore '_' (d :: r) = normCore '_' r := by
  simp [normCore, hd]

/-- A separator right after a word character pushes one `'_'`. -/
theorem normCore_sep_emit (p d : Char) (r : List Char) (hp : p ≠ '_')
    (hd : d.isAlphanum = false) :
    normCore p (d :: r) = '_' :: normCore '_' r := by
  simp [normCore, hd, hp]

/-- The last element of an appended list with nonempty right part decides
`trailSep`. -/
theorem trailSep_append (w r : List Char) (h : r ≠ []) :
    trailSep (w ++ r) = trailSep r := by
  obtain ⟨x, hx⟩ :=
    Option.isSome_iff_exists.mp (List.getLast?_isSome.mpr h)
  unfold trailSep
  rw [List.getLast?_append, hx]
  rfl

/-- Joining nonempty words yields a nonempty list. -/
theorem joinUS_ne_nil (w : List Char) (ws : List (List Char))
    (h : w ≠ []) : joinUS (w :: ws) ≠ [] := by
  cases ws with
  | nil => simpa [joinUS] using h
  | cons w2 ws2 => simp [joinUS]

/-- Joining nonempty underscore-free words never ends in `'_'`. -/
theorem joinUS_getLast_ne (ws : List (List Char))
    (h : ∀ w ∈ ws, w ≠ [] ∧ ∀ d ∈ w, d ≠ '_') :
    (joinUS ws).getLast? ≠ some '_' := by
  induction ws with
  | nil => simp [joinUS]
  | cons w ws2 ih =>
    cases ws2 with
    | nil =>
      obtain ⟨hne, hch⟩ := h w (List.mem_cons_self w [])
      intro hl
      exact hch '_' (List.mem_of_getLast?_eq_some (by simpa [joinUS] using hl))
        rfl
    | cons w2 ws3 =>
      have htail : ∀ x ∈ w2 :: ws3, x ≠ [] ∧ ∀ d ∈ x, d ≠ '_' := fun x hx =>
        h x (List.mem_cons_of_mem w hx)
      have hne2 : joinUS (w2 :: ws3) ≠ [] :=
        joinUS_ne_nil w2 ws3 (htail w2 (List.mem_cons_self w2 ws3)).1
      obtain ⟨x, hx⟩ :=
        Option.isSome_iff_exists.mp (List.getLast?_isSome.mpr hne2)
      intro hl
      have hjoin : joinUS (w :: w2 :: ws3)
          = w ++ '_' :: joinUS (w2 :: ws3) := rfl
      rw [hjoin, List.getLast?_append] at hl
      have hcons : ('_' :: joinUS (w2 :: ws3)).getLast?
          = (joinUS (w2 :: ws3)).getLast? := by
        cases hc : joinUS (w2 :: ws3) with
        | nil => exact absurd hc hne2
        | cons y ys => simp
      rw [hcons, hx] at hl
      exact ih htail (by rw [hx]; simpa using hl)

/-- Structure of the `normalize_string` loop output: the lowercased
maximal runs joined by single underscores, plus one trailing underscore
exactly when the input ends in a separator and at least one word was
emitted. -/
theorem normCore_eq_joinUS (cs : List Char) :
    normCore '_' cs
      = joinUS (specWords cs)
        ++ (if trailSep cs && !(specWords cs).isEmpty then ['_']
            else []) := by
  induction cs using specWords.induct with
  | case1 => simp [normCore, specWords, trailSep, joinUS]
  | case2 c rest hc ih =>
    have hwa : ∀ x ∈ (c :: rest).takeWhile Char.isAlphanum,
        x.isAlphanum = true := fun x hx => List.mem_takeWhile_imp hx
    have hwne : (c :: rest).takeWhile Char.isAlphanum ≠ [] := by
      rw [List.takeWhile_cons_of_pos hc]
      simp
    have hsplit : (c :: rest).takeWhile Char.isAlphanum
        ++ (c :: rest).dropWhile Char.isAlphanum = c :: rest :=
      List.takeWhile_append_dropWhile Char.isAlphanum (c :: rest)
    have hmne : ((c :: rest).takeWhile Char.isAlphanum).map Char.toLower
        ≠ [] := by
      simpa using hwne
    obtain ⟨y, hy⟩ :=
      Option.isSome_iff_exists.mp (List.getLast?_isSome.mpr hmne)
    have hyne : y ≠ '_' := by
      obtain ⟨x, hx, rfl⟩ :=
        List.mem_map.mp (List.mem_of_getLast?_eq_some hy)
      exact toLower_ne_underscore x (hwa x hx)
    have hp : (((c :: rest).takeWhile Char.isAlphanum).map
        Char.toLower).getLastD '_' = y := by
      rw [List.getLastD_eq_getLast?, hy]
      rfl
    have hlhs : normCore '_' (c :: rest)
        = ((c :: rest).takeWhile Char.isAlphanum).map Char.toLower
            ++ normCore y ((c :: rest).dropWhile Char.isAlphanum) := by
      conv_lhs => rw [← hsplit]
      rw [normCore_word _ _ '_' hwa, hp]
    rw [hlhs, specWords_word c rest hc]
    cases hrc : (c :: rest).dropWhile Char.isAlphanum with
    | nil =>
      rw [hrc] at hsplit
      rw [List.append_nil] at hsplit
      have htr : trailSep (c :: rest) = false := by
        obtain ⟨z, hz⟩ := Option.isSome_iff_exists.mp
          (List.getLast?_isSome.mpr (by simp : (c : Char) :: rest ≠ []))
        have hzmem : z ∈ (c :: rest).takeWhile Char.isAlphanum := by
          rw [hsplit]
          exact List.mem_of_getLast?_eq_some hz
        unfold trailSep
        rw [hz]
        simp [hwa z hzmem]
      rw [htr]
      simp [joinUS, specWords, normCore]
    | cons d r2 =>
      have hd : d.isAlphanum = false :=
        dropWhile_head_false Char.isAlphanum (c :: rest) d r2 hrc
      have hstep : normCore y (d :: r2) = '_' :: normCore '_' (d :: r2) := by
        rw [normCore_sep_emit y d r2 hyne hd, normCore_sep_skip d r2 hd]
      have htr : trailSep (c :: rest) = trailSep (d :: r2) := by
        conv_lhs => rw [← hsplit, hrc]
        exact trailSep_append _ _ (by simp)
      rw [hrc] at ih
      rw [hstep, htr, ih]
      cases hws : specWords (d :: r2) with
      | nil =>
        have hall : ∀ x ∈ d :: r2, x.isAlphanum = false :=
          specWords_eq_nil (d :: r2) hws
        have htr2 : trailSep (d :: r2) = true := by
          obtain ⟨z, hz⟩ := Option.isSome_iff_exists.mp
            (List.getLast?_isSome.mpr (by simp : (d : Char) :: r2 ≠ []))
          unfold trailSep
          rw [hz]
          simp [hall z (List.mem_of_getLast?_eq_some hz)]
        rw [htr2]
        simp [joinUS]
      | cons w2 ws2 =>
        by_cases htr3 : trailSep (d :: r2) = true
        · simp [htr3, joinUS, List.append_assoc]
        · simp only [Bool.not_eq_true] at htr3
          simp [htr3, joinUS, List.append_assoc]
  | case3 c rest hc ih =>
    have hcf : c.isAlphanum = false := by simpa using hc
    rw [specWords_sep c rest hcf, normCore_sep_skip c rest hcf]
    cases hr : rest with
    | nil => simp [specWords, trailSep, joinUS, normCore]
    | cons d r2 =>
      rw [hr] at ih
      have htr : trailSep (c :: d :: r2) = trailSep (d :: r2) := by
        unfold trailSep
        rw [List.getLast?_cons_cons]
      rw [htr]
      exact ih

/-- List-level form: popping the trailing underscore leaves exactly the
joined lowercased words. -/
theorem normalizeList_eq (cs : List Char) :
    (if (normCore '_' cs).getLast? = some '_'
     then (normCore '_' cs).dropLast else normCore '_' cs)
      = joinUS (specWords cs) := by
  have hlast : (joinUS (specWords cs)).getLast? ≠ some '_' :=
    joinUS_getLast_ne (specWords cs) (specWords_no_underscore cs)
  rw [normCore_eq_joinUS cs]
  by_cases hT : (trailSep cs && !(specWords cs).isEmpty) = true
  · have h1 : (if (trailSep cs && !(specWords cs).isEmpty) = true
        then ['_'] else ([] : List Char)) = ['_'] := by simp [hT]
    rw [h1, List.getLast?_concat, if_pos rfl, List.dropLast_concat]
  · simp only [Bool.not_eq_true] at hT
    have h1 : (if (trailSep cs && !(specWords cs).isEmpty) = true
        then ['_'] else ([] : List Char)) = [] := by simp [hT]
    rw [h1, List.append_nil, if_neg hlast]

/-- `normalize_string` agrees with the specification normalizer on every
string. -/
theorem normalize_eq_spec (s : String) :
    normalize_string s = specNormalize s :=
  congrArg String.mk (normalizeList_eq s.data)

/-- **C4**: `normalize_string` lower-cases every alphanumeric character,
collapses each run of one or more non-alphanumeric characters into a
single `'_'`, and never emits a leading or trailing `'_'` — it coincides
with the specification normalizer (lowercased maximal alphanumeric runs
joined by single underscores) on every input — and the four concrete
examples of the claim hold. -/
theorem normalize_string_correct :
    (∀ s : String, normalize_string s = specNormalize s) ∧
    normalize_string "Foo Bar" = "foo_bar" ∧
    normalize_string "  a--b()  " = "a_b" ∧
    normalize_string "___" = "" ∧
    normalize_string "A1" = "a1" :=
  ⟨normalize_eq_spec, by decide, by decide, by decide, by decide⟩

/-- **C5** counterexample: with `numeric_values_only` set, the value
`"inf"` is accepted by `value.parse::<f64>()` (Rust's float grammar
accepts the infinity and NaN words), so the code emits a sample line for
it — yet `"inf"` does not parse as a *finite decimal number*, where the
claim demands a skip-comment and no sample line. -/
theorem numeric_filter_counterexample :
    parsesAsFiniteDecimal "inf" = false ∧
    (processPair cfgC5 [] "h" "inf").1 = PairKind.sample ∧
    (processPair cfgC5 [] "h" "inf").2.1 = sampleBlock cfgC5 "h" "inf" :=
  ⟨rfl, rfl, rfl⟩

/-- **C5** amended: with `numeric_values_only` set and the pair not eaten
by the duplicate filter, the pair yields the skip-comment and no sample
line exactly when the value fails the `f64` parse grammar (which also
accepts `inf`/`infinity`/`nan` and scientific notation, not only finite
decimal numbers); `"abc"` always yields the skip-comment and `"3.14"`
always yields the sample line. -/
theorem numeric_filter (cfg : Config) (seen : List String) (h v : String)
    (hn : cfg.output.numeric_values_only = true)
    (hdup : cfg.output.skip_duplicate_headers = true →
      seen.contains h = false) :
    ((processPair cfg seen h v).1 = PairKind.numSkip ↔
      parsesF64 v = false) ∧
    (parsesF64 v = false →
      (processPair cfg seen h v).2.1 = skipBlock h v) ∧
    (parsesF64 v = true →
      (processPair cfg seen h v).1 = PairKind.sample ∧
      (processPair cfg seen h v).2.1 = sampleBlock cfg h v) ∧
    parsesF64 "abc" = false ∧ parsesF64 "3.14" = true := by
  have hc : (cfg.output.skip_duplicate_headers && seen.contains h)
      = false := by
    cases hs : cfg.output.skip_duplicate_headers with
    | true =>
      rw [hdup hs]
      rfl
    | false => rfl
  cases hv : parsesF64 v with
  | false =>
    refine ⟨?_, ?_, ?_, by decide, by decide⟩
    · simp only [processPair, hc]
      simp [hn, hv]
    · intro _
      simp only [processPair, hc]
      simp [hn, hv]
    · intro hx
      cases hx
  | true =>
    refine ⟨?_, ?_, ?_, by decide, by decide⟩
    · simp only [processPair, hc]
      simp [hn, hv]
    · intro hx
      cases hx
    · intro _
      simp only [processPair, hc]
      simp [hn, hv]

/-- Witness for C5 (amended) at `cfgC5`, empty seen list, header `"h"`
and value `"abc"`. -/
theorem numeric_filter_witness :
    ((processPair cfgC5 [] "h" "abc").1 = PairKind.numSkip ↔
      parsesF64 "abc" = false) ∧
    (parsesF64 "abc" = false →
      (processPair cfgC5 [] "h" "abc").2.1 = skipBlock "h" "abc") ∧
    (parsesF64 "abc" = true →
      (processPair cfgC5 [] "h" "abc").1 = PairKind.sample ∧
      (processPair cfgC5 [] "h" "abc").2.1 = sampleBlock cfgC5 "h" "abc") ∧
    parsesF64 "abc" = false ∧ parsesF64 "3.14" = true :=
  numeric_filter cfgC5 [] "h" "abc" rfl (by decide)

/-- **C6**: with `skip_duplicate_headers` set, a pair is skipped by the
duplicate filter exactly when its header name was already recorded by an
earlier pair of the same pass, and otherwise the header name is appended
to the seen list; with two columns both named `"x"`, exactly one sample
line for `"x"` is emitted and the second occurrence yields the
skip-comment. -/
theorem duplicate_header_filter (cfg : Config) (seen : List String)
    (h v : String) (hs : cfg.output.skip_duplicate_headers = true) :
    ((processPair cfg seen h v).1 = PairKind.dupSkip ↔
      seen.contains h = true) ∧
    (seen.contains h = true →
      (processPair cfg seen h v).2.1 = skipBlock h v ∧
      (processPair cfg seen h v).2.2 = seen) ∧
    (seen.contains h = false →
      (processPair cfg seen h v).2.2 = seen ++ [h]) ∧
    renderRecord cfgC6 ["x", "x"] ["1", "2"]
      = sampleBlock cfgC6 "x" "1" ++ skipBlock "x" "2" := by
  cases hcon : seen.contains h with
  | true =>
    refine ⟨by simp only [processPair, hs, hcon]; simp, ?_, ?_, rfl⟩
    · intro _
      simp only [processPair, hs, hcon]
      simp
    · intro hx
      cases hx
  | false =>
    by_cases hnum : (cfg.output.numeric_values_only && !parsesF64 v) = true
    · refine ⟨by simp only [processPair, hs, hcon, hnum]; simp, ?_, ?_, rfl⟩
      · intro hx
        cases hx
      · intro _
        simp only [processPair, hs, hcon, hnum]
        simp
    · simp only [Bool.not_eq_true] at hnum
      refine ⟨by simp only [processPair, hs, hcon, hnum]; simp, ?_, ?_, rfl⟩
      · intro hx
        cases hx
      · intro _
        simp only [processPair, hs, hcon, hnum]
        simp

/-- Witness for C6 at `cfgC6` with `"x"` already seen. -/
theorem duplicate_header_filter_witness :
    ((processPair cfgC6 ["x"] "x" "2").1 = PairKind.dupSkip ↔
      List.contains ["x"] "x" = true) ∧
    (List.contains ["x"] "x" = true →
      (processPair cfgC6 ["x"] "x" "2").2.1 = skipBlock "x" "2" ∧
      (processPair cfgC6 ["x"] "x" "2").2.2 = ["x"]) ∧
    (List.contains ["x"] "x" = false →
      (processPair cfgC6 ["x"] "x" "2").2.2 = ["x"] ++ ["x"]) ∧
    renderRecord cfgC6 ["x", "x"] ["1", "2"]
      = sampleBlock cfgC6 "x" "1" ++ skipBlock "x" "2" :=
  duplicate_header_filter cfgC6 ["x"] "x" "2" rfl
